import Mathlib

/-!
Verification of the heatmap-to-keypoint post-processing in
`paddlex/ppdet/modeling/architectures/keypoint_hrnet.py`
(`TopDownHRNet.flip_back`, `TopDownHRNet._forward` flip-test combination,
`HRNetPostProcess.get_max_preds`, `HRNetPostProcess.get_final_preds`,
`HRNetPostProcess.__call__`).

Heatmap scores are modelled as rationals.  A 4-dimensional ndarray of
shape (batch, joints, height, width) is modelled as a total function
`Nat → Nat → Nat → Nat → ℚ` together with the dimensions passed
explicitly; flattening a (height, width) slice in C order reads flat
index `i` at row `i / W`, column `i % W`, exactly as `ndarray.reshape`
does.
-/

namespace KeypointHRNet

/-- `np.sign` on rationals. -/
def qsign (v : ℚ) : ℚ :=
  if 0 < v then 1 else if v < 0 then -1 else 0

/-- Index of the first maximum of `g` among flat indices `0..k`
(`np.argmax` returns the first occurrence of the maximum). -/
def argmaxLe (g : Nat → ℚ) : Nat → Nat
  | 0 => 0
  | k + 1 =>
    let b := argmaxLe g k
    if g b < g (k + 1) then k + 1 else b

/-- Maximum value of `g` among flat indices `0..k` (`np.amax`). -/
def amaxLe (g : Nat → ℚ) : Nat → ℚ
  | 0 => g 0
  | k + 1 => max (amaxLe g k) (g (k + 1))

/-- A 4-dimensional score array `(batch, joint, row, column) ↦ score`. -/
abbrev Arr4 := Nat → Nat → Nat → Nat → ℚ

/-- `heatmaps.reshape((batch_size, num_joints, -1))`: the flattened
(height, width) slice of batch item `n`, joint `j`, read at a flat index. -/
def flatSlice (hm : Arr4) (W n j : Nat) : Nat → ℚ :=
  fun i => hm n j (i / W) (i % W)

/-- `idx = np.argmax(heatmaps_reshaped, 2)` for one (batch item, joint). -/
def gmp_idx (hm : Arr4) (H W n j : Nat) : Nat :=
  argmaxLe (flatSlice hm W n j) (H * W - 1)

/-- `maxvals = np.amax(heatmaps_reshaped, 2)` for one (batch item, joint). -/
def gmp_maxval (hm : Arr4) (H W n j : Nat) : ℚ :=
  amaxLe (flatSlice hm W n j) (H * W - 1)

/-- The integer coordinate produced by `get_max_preds` for one
(batch item, joint): `x = idx % width`, `y = floor(idx / width)`,
zeroed by the `pred_mask` when the maximum score is not `> 0`. -/
def gmp_predN (hm : Arr4) (H W n j : Nat) : Nat × Nat :=
  if 0 < gmp_maxval hm H W n j then
    (gmp_idx hm H W n j % W, gmp_idx hm H W n j / W)
  else (0, 0)

/-- `get_max_preds` coordinate for one (batch item, joint), as the
rational pair stored in `preds`. -/
def gmp_pred (hm : Arr4) (H W n j : Nat) : ℚ × ℚ :=
  (((gmp_predN hm H W n j).1 : ℚ), ((gmp_predN hm H W n j).2 : ℚ))

/-- The sub-pixel refinement loop body of `get_final_preds`:
`px = floor(coords[n][p][0] + 0.5)`, `py = floor(coords[n][p][1] + 0.5)`,
and when `1 < px < heatmap_width - 1 and 1 < py < heatmap_height - 1`
the coordinate is nudged by `np.sign(diff) * .25` on each axis. -/
def refineStep (hm : Arr4) (H W n j : Nat) (c : ℚ × ℚ) : ℚ × ℚ :=
  let px : ℤ := ⌊c.1 + 1/2⌋
  let py : ℤ := ⌊c.2 + 1/2⌋
  if 1 < px ∧ px < (W : ℤ) - 1 ∧ 1 < py ∧ py < (H : ℤ) - 1 then
    let diffx := hm n j py.toNat (px.toNat + 1) - hm n j py.toNat (px.toNat - 1)
    let diffy := hm n j (py.toNat + 1) px.toNat - hm n j (py.toNat - 1) px.toNat
    (c.1 + qsign diffx * (1/4), c.2 + qsign diffy * (1/4))
  else c

/-- The pre-transform coordinate produced by `get_final_preds` for one
(batch item, joint): the `get_max_preds` coordinate after the sub-pixel
refinement step (before `transform_preds`). -/
def gfp_coords (hm : Arr4) (H W n j : Nat) : ℚ × ℚ :=
  refineStep hm H W n j (gmp_pred hm H W n j)

/-! ### `TopDownHRNet.flip_back` and the flip-test combination in `_forward`

`output_flipped[:, :, :, ::-1]` is a reversed *view* of the caller's
array; the per-pair channel swaps write through that view, so they
mutate the backing array.  We model the backing array and the view
separately: a write of channel `q` into channel `p` through the reversed
view reads and writes the same reversed column, so its effect on the
backing array is a plain channel copy (the reversal cancels); the pair
of assignments with the `tmp` copy therefore swaps the two channels of
the backing array, on the columns `x < W` the view covers. -/

/-- The reversed-width view `a[:, :, :, ::-1]`. -/
def reverseW (W : Nat) (a : Arr4) : Arr4 :=
  fun n j y x => a n j y (W - 1 - x)

/-- Effect on an array of the `tmp = a[:, p].copy(); a[:, p] = a[:, q];
a[:, q] = tmp` channel swap, which touches only columns `x < W` (the
extent of the width axis). -/
def swapCh (W : Nat) (a : Arr4) (p q : Nat) : Arr4 :=
  fun n j y x =>
    if x < W then
      if j = p then a n q y x else if j = q then a n p y x else a n j y x
    else a n j y x

/-- The backing array of the caller's `output_flipped` after
`flip_back` returns: each `pair` in `matched_parts` has been swapped in
place (the reversed view used for reading and writing cancels out). -/
def flipBackBase (a : Arr4) (pairs : List (Nat × Nat)) (W : Nat) : Arr4 :=
  pairs.foldl (fun acc p => swapCh W acc p.1 p.2) a

/-- The array `flip_back` returns: the reversed view over the mutated
backing array. -/
def flip_back (a : Arr4) (pairs : List (Nat × Nat)) (W : Nat) : Arr4 :=
  reverseW W (flipBackBase a pairs W)

/-- `output_flipped[:, :, :, 1:] = output_flipped.clone()[:, :, :, 0:-1]`:
every column `x ≥ 1` is replaced by the previous column, column 0 is
kept. -/
def shiftHeatmap (a : Arr4) : Arr4 :=
  fun n j y x => if 1 ≤ x then a n j y (x - 1) else a n j y x

/-- `hrnet_outputs = (hrnet_outputs + output_flipped) * 0.5` in
`_forward` with `flip` enabled: `h` is the straight heatmap,
`flipped` the network output on the mirrored image. -/
def forwardHeatmap (h flipped : Arr4) (pairs : List (Nat × Nat)) (W : Nat)
    (shift : Bool) : Arr4 :=
  let corrected :=
    if shift then shiftHeatmap (flip_back flipped pairs W)
    else flip_back flipped pairs W
  fun n j y x => (h n j y x + corrected n j y x) * (1/2)

/-- No joint index occurs twice in the flip-pair list, and no pair is
degenerate. -/
def pairsDisjoint (pairs : List (Nat × Nat)) : Prop :=
  (∀ p ∈ pairs, p.1 ≠ p.2) ∧
  pairs.Pairwise (fun p q => p.1 ≠ q.1 ∧ p.1 ≠ q.2 ∧ p.2 ≠ q.1 ∧ p.2 ≠ q.2)

instance (pairs : List (Nat × Nat)) : Decidable (pairsDisjoint pairs) := by
  unfold pairsDisjoint
  exact instDecidableAnd

/-! ### `get_max_preds` entry checks on a raw ndarray

`get_max_preds` itself asserts `heatmaps.ndim == 4`; afterwards
`reshape((batch_size, num_joints, -1))` raises a `ValueError` when the
`-1` length cannot be determined (`batch_size * num_joints == 0` on a
size-0 array), and `np.argmax(..., 2)` raises a `ValueError` when the
flattened axis is empty (`height * width == 0`). -/

/-- A raw ndarray: a shape together with the C-order flat data. -/
structure NDArray where
  shape : List Nat
  data : List ℚ

/-- The Python exceptions the routine can raise. -/
inductive PyError where
  | assertionError : PyError
  | valueError : PyError
deriving DecidableEq

/-- Read a 4-dimensional ndarray at `(n, j, y, x)` (C order). -/
def ndElem (a : NDArray) (J H W : Nat) : Arr4 :=
  fun n j y x => (a.data.getD (((n * J + j) * H + y) * W + x) 0)

/-- `HRNetPostProcess.get_max_preds` on a raw ndarray: the `assert`
on the number of dimensions, the numpy errors of `reshape`/`argmax` on
empty axes, and otherwise per-slice peak extraction.  Returns
`(preds, maxvals)` as nested lists over the batch and joint axes. -/
def get_max_preds (a : NDArray) :
    Except PyError (List (List (ℚ × ℚ)) × List (List ℚ)) :=
  match a.shape with
  | [B, J, H, W] =>
    if B * J = 0 then Except.error PyError.valueError
    else if H * W = 0 then Except.error PyError.valueError
    else
      Except.ok
        ((List.range B).map fun n =>
          (List.range J).map fun j => gmp_pred (ndElem a J H W) H W n j,
         (List.range B).map fun n =>
           (List.range J).map fun j => gmp_maxval (ndElem a J H W) H W n j)
  | _ => Except.error PyError.assertionError

/-! ### `transform_preds` and `HRNetPostProcess.__call__` -/

/-- Modelled from the spec: `transform_preds` (imported from
`..keypoint_utils`, not part of this slice) maps a heatmap-space
coordinate to original-image space with "scaling factor =
scale×200/heatmap_dim" per axis and a translation recentering around
`center`. -/
def transform_preds (c : ℚ × ℚ) (center scale : ℚ × ℚ) (W H : Nat) : ℚ × ℚ :=
  (c.1 * (scale.1 * 200 / W) + (center.1 - scale.1 * 100),
   c.2 * (scale.2 * 200 / H) + (center.2 - scale.2 * 100))

/-- One row of `np.concatenate((preds, maxvals), axis=-1)`: the
transformed keypoint coordinate followed by its confidence. -/
def kpt_row (hm : Arr4) (H W : Nat) (center scale : Nat → ℚ × ℚ)
    (n j : Nat) : ℚ × ℚ × ℚ :=
  let c := transform_preds (gfp_coords hm H W n j) (center n) (scale n) W H
  (c.1, c.2, gmp_maxval hm H W n j)

/-- `np.mean(maxvals, axis=1)` for one batch item: the mean confidence
over the joint axis. -/
def meanScore (hm : Arr4) (H W J n : Nat) : ℚ :=
  (((List.range J).map fun j => gmp_maxval hm H W n j).sum) / J

/-- `HRNetPostProcess.__call__`: builds
`[[np.concatenate((preds, maxvals), axis=-1), np.mean(maxvals, axis=1)]]`
— a list with a single element holding the whole-batch
`(batch, joints, 3)` array and the `(batch, 1)` array of mean scores. -/
def postprocess_call (hm : Arr4) (B J H W : Nat)
    (center scale : Nat → ℚ × ℚ) :
    List ((List (List (ℚ × ℚ × ℚ))) × List ℚ) :=
  [((List.range B).map fun n =>
      (List.range J).map fun j => kpt_row hm H W center scale n j,
    (List.range B).map fun n => meanScore hm H W J n)]

/-! ### Concrete arrays used as counterexamples and witnesses -/

/-- 1×1×3×3 heatmap: score 4 at `(x, y) = (1, 1)`, 2 at `(2, 1)`,
0 elsewhere.  The peak is strictly inside the 3×3 grid by one pixel. -/
def hmC1 : Arr4 :=
  fun _ _ y x =>
    if y = 1 ∧ x = 1 then 4 else if y = 1 ∧ x = 2 then 2 else 0

/-- 1×1×5×5 heatmap: score 8 at `(x, y) = (2, 2)`, 4 at `(3, 2)`,
2 at `(2, 1)`, 0 elsewhere. -/
def hmWit : Arr4 :=
  fun _ _ y x =>
    if y = 2 ∧ x = 2 then 8
    else if y = 2 ∧ x = 3 then 4
    else if y = 1 ∧ x = 2 then 2
    else 0

/-- 1×1×1×2 heatmap with scores `[-2, -1]`: all scores are negative,
and the argmax is at flat index 1. -/
def hmC2 : Arr4 := fun _ _ _ x => if x = 0 then -2 else -1

/-- The all-zero heatmap. -/
def zeroHm : Arr4 := fun _ _ _ _ => 0

/-- A unit impulse heatmap: score 1 at `(x0, y0)`, `0` elsewhere. -/
def impulseHm (y0 x0 : Nat) : Arr4 :=
  fun _ _ y x => if y = y0 ∧ x = x0 then 1 else 0

/-- 1×2×1×2 array with pairwise different entries, used to exhibit the
in-place mutation of `flip_back`. -/
def hmC10 : Arr4 :=
  fun _ j _ x =>
    if j = 0 then (if x = 0 then 1 else 2) else (if x = 0 then 3 else 4)

/-! ### Basic properties of `argmaxLe` and `amaxLe` -/

theorem argmaxLe_le (g : Nat → ℚ) (k : Nat) : argmaxLe g k ≤ k := by
  induction k with
  | zero => simp [argmaxLe]
  | succ k ih =>
    simp only [argmaxLe]
    split
    · exact Nat.le_refl _
    · exact Nat.le_succ_of_le ih

theorem le_g_argmaxLe (g : Nat → ℚ) (k : Nat) :
    ∀ i ≤ k, g i ≤ g (argmaxLe g k) := by
  induction k with
  | zero =>
    intro i hi
    simp [Nat.le_zero.mp hi, argmaxLe]
  | succ k ih =>
    intro i hi
    simp only [argmaxLe]
    by_cases hik : i ≤ k
    · by_cases hc : g (argmaxLe g k) < g (k + 1)
      · simp only [if_pos hc]
        exact le_of_lt (lt_of_le_of_lt (ih i hik) hc)
      · simp only [if_neg hc]
        exact ih i hik
    · have hieq : i = k + 1 := by omega
      subst hieq
      by_cases hc : g (argmaxLe g k) < g (k + 1)
      · simp only [if_pos hc]
        exact le_refl _
      · simp only [if_neg hc]
        exact le_of_not_lt hc

theorem g_lt_of_lt_argmaxLe (g : Nat → ℚ) (k : Nat) :
    ∀ i < argmaxLe g k, g i < g (argmaxLe g k) := by
  induction k with
  | zero => intro i hi; simp [argmaxLe] at hi
  | succ k ih =>
    intro i hi
    simp only [argmaxLe] at hi ⊢
    by_cases hc : g (argmaxLe g k) < g (k + 1)
    · simp only [if_pos hc] at hi ⊢
      have hik : i ≤ k := by
        have := argmaxLe_le g k
        omega
      exact lt_of_le_of_lt (le_g_argmaxLe g k i hik) hc
    · simp only [if_neg hc] at hi ⊢
      exact ih i hi

theorem amaxLe_eq (g : Nat → ℚ) (k : Nat) : amaxLe g k = g (argmaxLe g k) := by
  induction k with
  | zero => simp [amaxLe, argmaxLe]
  | succ k ih =>
    simp only [amaxLe, argmaxLe, ih]
    rcases lt_trichotomy (g (argmaxLe g k)) (g (k + 1)) with h | h | h
    · simp [h, max_eq_right (le_of_lt h)]
    · simp [h, le_of_eq h.symm]
    · simp [not_lt.mpr (le_of_lt h), max_eq_left (le_of_lt h)]

theorem amaxLe_const (c : ℚ) (k : Nat) : amaxLe (fun _ => c) k = c := by
  induction k with
  | zero => simp [amaxLe]
  | succ k ih => simp [amaxLe, ih]

/-- `argmaxLe` of a unit impulse: if `g` is `1` at `i0` and `0` elsewhere,
the first maximum over `0..k` (with `i0 ≤ k`) is at `i0`. -/
theorem argmaxLe_impulse (g : Nat → ℚ) (i0 k : Nat) (h0 : g i0 = 1)
    (hz : ∀ i, i ≠ i0 → g i = 0) (hik : i0 ≤ k) : argmaxLe g k = i0 := by
  induction k with
  | zero =>
    simp [argmaxLe]
    omega
  | succ k ih =>
    simp only [argmaxLe]
    by_cases h : i0 ≤ k
    · rw [ih h]
      have hz1 : g (k + 1) = 0 := hz (k + 1) (by omega)
      rw [hz1, h0]
      norm_num
    · have hieq : i0 = k + 1 := by omega
      subst hieq
      have hb : argmaxLe g k ≤ k := argmaxLe_le g k
      have hzb : g (argmaxLe g k) = 0 := hz _ (by omega)
      rw [hzb, h0]
      norm_num

/-! ### Claim C2: `get_max_preds` peak extraction -/

/-- C2 counterexample: on the 1×1×1×2 heatmap with scores `[-2, -1]`
the flat argmax index is 1, so the claim predicts the coordinate
`(1 % width, 1 / width) = (1, 0)`; but since the maximum score is not
`> 0` the `pred_mask` zeroes the coordinate and `get_max_preds`
returns `(0, 0)`. -/
theorem C2_counterexample :
    gmp_idx hmC2 1 2 0 0 = 1 ∧
    gmp_pred hmC2 1 2 0 0 = (0, 0) ∧
    gmp_pred hmC2 1 2 0 0 ≠
      (((gmp_idx hmC2 1 2 0 0 % 2 : Nat) : ℚ),
       ((gmp_idx hmC2 1 2 0 0 / 2 : Nat) : ℚ)) := by
  norm_num [gmp_pred, gmp_predN, gmp_maxval, gmp_idx, amaxLe, argmaxLe,
    flatSlice, hmC2, Prod.ext_iff]

/-- C2 (amended): for every (batch item, joint) slice of a heatmap with
positive height and width, `get_max_preds` returns the maximum score of
the slice as the confidence (it is attained at the flat argmax index,
dominates every flat index, and the argmax is the first maximizer), and
the coordinate `x = index mod width`, `y = floor(index / width)` —
provided the maximum score is `> 0`; a slice whose maximum is `≤ 0` has
its coordinate zeroed by the `pred_mask` instead. -/
theorem C2_get_max_preds (hm : Arr4) (H W n j : Nat) (hH : 0 < H) (hW : 0 < W) :
    gmp_idx hm H W n j < H * W ∧
    (∀ i, i < H * W → flatSlice hm W n j i ≤ flatSlice hm W n j (gmp_idx hm H W n j)) ∧
    (∀ i, i < gmp_idx hm H W n j →
      flatSlice hm W n j i < flatSlice hm W n j (gmp_idx hm H W n j)) ∧
    gmp_maxval hm H W n j = flatSlice hm W n j (gmp_idx hm H W n j) ∧
    (0 < gmp_maxval hm H W n j →
      gmp_pred hm H W n j =
        (((gmp_idx hm H W n j % W : Nat) : ℚ), ((gmp_idx hm H W n j / W : Nat) : ℚ))) ∧
    (gmp_maxval hm H W n j ≤ 0 → gmp_pred hm H W n j = (0, 0)) := by
  have hHW : 0 < H * W := Nat.mul_pos hH hW
  simp only [gmp_idx, gmp_maxval, gmp_pred, gmp_predN]
  refine ⟨?_, ?_, ?_, ?_, ?_, ?_⟩
  · have := argmaxLe_le (flatSlice hm W n j) (H * W - 1)
    omega
  · intro i hi
    exact le_g_argmaxLe _ _ i (by omega)
  · intro i hi
    exact g_lt_of_lt_argmaxLe _ _ i hi
  · exact amaxLe_eq _ _
  · intro h
    rw [if_pos h]
  · intro h
    rw [if_neg (not_lt.mpr h)]
    norm_num

/-- Witness for C2 (amended) at the concrete heatmap `hmC2`. -/
theorem C2_witness :
    gmp_maxval hmC2 1 2 0 0 = flatSlice hmC2 2 0 0 (gmp_idx hmC2 1 2 0 0) ∧
    gmp_pred hmC2 1 2 0 0 = (0, 0) :=
  ⟨(C2_get_max_preds hmC2 1 2 0 0 (by norm_num) (by norm_num)).2.2.2.1,
   (C2_get_max_preds hmC2 1 2 0 0 (by norm_num) (by norm_num)).2.2.2.2.2
     (by norm_num [gmp_maxval, amaxLe, flatSlice, hmC2])⟩

/-! ### Claim C3: the `pred_mask` and all-zero heatmaps -/

/-- C3: a (batch item, joint) slice whose maximum score is `≤ 0` gets
coordinate `(0, 0)` from `get_max_preds`; in particular on the all-zero
heatmap every joint's coordinate is `(0, 0)` and its confidence is 0. -/
theorem C3_zero_mask (hm : Arr4) (H W n j : Nat) :
    (gmp_maxval hm H W n j ≤ 0 → gmp_pred hm H W n j = (0, 0)) ∧
    gmp_pred zeroHm H W n j = (0, 0) ∧
    gmp_maxval zeroHm H W n j = 0 := by
  have hz : gmp_maxval zeroHm H W n j = 0 := by
    simp only [gmp_maxval, flatSlice, zeroHm]
    exact amaxLe_const 0 _
  refine ⟨?_, ?_, hz⟩
  · intro h
    simp [gmp_pred, gmp_predN, not_lt.mpr h]
  · simp [gmp_pred, gmp_predN, hz]

/-- Witness for C3 at the concrete heatmap `hmC2` (maximum `-1 ≤ 0`)
and the all-zero heatmap at `H = W = 3`. -/
theorem C3_witness :
    gmp_pred hmC2 1 2 0 0 = (0, 0) ∧
    gmp_pred zeroHm 3 3 0 0 = (0, 0) ∧
    gmp_maxval zeroHm 3 3 0 0 = 0 :=
  ⟨(C3_zero_mask hmC2 1 2 0 0).1 (by norm_num [gmp_maxval, amaxLe, flatSlice, hmC2]),
   (C3_zero_mask zeroHm 3 3 0 0).2.1,
   (C3_zero_mask zeroHm 3 3 0 0).2.2⟩

/-! ### The refinement step at integer coordinates -/

theorem floor_natCast_add_half (a : Nat) : ⌊(a : ℚ) + 1/2⌋ = (a : ℤ) := by
  rw [Int.floor_nat_add]
  norm_num

theorem qsign_bounds (v : ℚ) : -1 ≤ qsign v ∧ qsign v ≤ 1 := by
  unfold qsign
  split_ifs <;> norm_num

/-- `get_final_preds` rounds `coords + 0.5` down to get the integer
peak; on the integer coordinates `get_max_preds` produces, the
refinement fires exactly when `1 < px < width - 1` and
`1 < py < height - 1` (note: *strict* lower bound `1 < px`, not
`0 < px`). -/
theorem refineStep_natCast (hm : Arr4) (H W n j a b : Nat) :
    refineStep hm H W n j ((a : ℚ), (b : ℚ)) =
      if 1 < a ∧ a + 1 < W ∧ 1 < b ∧ b + 1 < H then
        ((a : ℚ) + qsign (hm n j b (a + 1) - hm n j b (a - 1)) * (1/4),
         (b : ℚ) + qsign (hm n j (b + 1) a - hm n j (b - 1) a) * (1/4))
      else ((a : ℚ), (b : ℚ)) := by
  simp only [refineStep, floor_natCast_add_half, Int.toNat_natCast]
  by_cases hg : 1 < a ∧ a + 1 < W ∧ 1 < b ∧ b + 1 < H
  · rw [if_pos (by omega : 1 < (a : ℤ) ∧ (a : ℤ) < (W : ℤ) - 1 ∧
        1 < (b : ℤ) ∧ (b : ℤ) < (H : ℤ) - 1), if_pos hg]
  · rw [if_neg (by omega :
        ¬(1 < (a : ℤ) ∧ (a : ℤ) < (W : ℤ) - 1 ∧
          1 < (b : ℤ) ∧ (b : ℤ) < (H : ℤ) - 1)), if_neg hg]

/-- The integer coordinate of `get_max_preds` lies inside the grid. -/
theorem gmp_predN_lt (hm : Arr4) (H W n j : Nat) (hH : 0 < H) (hW : 0 < W) :
    (gmp_predN hm H W n j).1 < W ∧ (gmp_predN hm H W n j).2 < H := by
  have hidx : gmp_idx hm H W n j < H * W := by
    have := argmaxLe_le (flatSlice hm W n j) (H * W - 1)
    have := Nat.mul_pos hH hW
    unfold gmp_idx
    omega
  unfold gmp_predN
  split
  · exact ⟨Nat.mod_lt _ hW, (Nat.div_lt_iff_lt_mul hW).mpr (by omega)⟩
  · exact ⟨hW, hH⟩

theorem gmp_pred_eq_cast (hm : Arr4) (H W n j : Nat) :
    gmp_pred hm H W n j =
      (((gmp_predN hm H W n j).1 : ℚ), ((gmp_predN hm H W n j).2 : ℚ)) := rfl

/-! ### Claim C9: coordinates stay inside the heatmap -/

/-- C9: on a heatmap of positive height `H` and width `W`, every
coordinate returned by `get_max_preds` and every pre-transform
coordinate of `get_final_preds` (after sub-pixel refinement) satisfies
`0 ≤ x ≤ W - 1` and `0 ≤ y ≤ H - 1`: refinement never moves a peak out
of bounds. -/
theorem C9_coords_in_bounds (hm : Arr4) (H W n j : Nat)
    (hH : 0 < H) (hW : 0 < W) :
    (0 ≤ (gmp_pred hm H W n j).1 ∧ (gmp_pred hm H W n j).1 ≤ (W : ℚ) - 1 ∧
     0 ≤ (gmp_pred hm H W n j).2 ∧ (gmp_pred hm H W n j).2 ≤ (H : ℚ) - 1) ∧
    (0 ≤ (gfp_coords hm H W n j).1 ∧ (gfp_coords hm H W n j).1 ≤ (W : ℚ) - 1 ∧
     0 ≤ (gfp_coords hm H W n j).2 ∧ (gfp_coords hm H W n j).2 ≤ (H : ℚ) - 1) := by
  obtain ⟨ha, hb⟩ := gmp_predN_lt hm H W n j hH hW
  have haQ : ((gmp_predN hm H W n j).1 : ℚ) ≤ (W : ℚ) - 1 := by
    have h1 : ((gmp_predN hm H W n j).1 : ℚ) + 1 ≤ (W : ℚ) := by
      exact_mod_cast Nat.succ_le_of_lt ha
    linarith
  have hbQ : ((gmp_predN hm H W n j).2 : ℚ) ≤ (H : ℚ) - 1 := by
    have h1 : ((gmp_predN hm H W n j).2 : ℚ) + 1 ≤ (H : ℚ) := by
      exact_mod_cast Nat.succ_le_of_lt hb
    linarith
  refine ⟨⟨?_, ?_, ?_, ?_⟩, ?_⟩
  · rw [gmp_pred_eq_cast]; exact Nat.cast_nonneg _
  · rw [gmp_pred_eq_cast]; exact haQ
  · rw [gmp_pred_eq_cast]; exact Nat.cast_nonneg _
  · rw [gmp_pred_eq_cast]; exact hbQ
  · have hgfp : gfp_coords hm H W n j =
        refineStep hm H W n j
          (((gmp_predN hm H W n j).1 : ℚ), ((gmp_predN hm H W n j).2 : ℚ)) := by
      rw [gfp_coords, gmp_pred_eq_cast]
    rw [hgfp, refineStep_natCast]
    set a := (gmp_predN hm H W n j).1 with hadef
    set b := (gmp_predN hm H W n j).2 with hbdef
    by_cases hg : 1 < a ∧ a + 1 < W ∧ 1 < b ∧ b + 1 < H
    · rw [if_pos hg]
      obtain ⟨hsx1, hsx2⟩ := qsign_bounds (hm n j b (a + 1) - hm n j b (a - 1))
      obtain ⟨hsy1, hsy2⟩ := qsign_bounds (hm n j (b + 1) a - hm n j (b - 1) a)
      have h2a : (2 : ℚ) ≤ (a : ℚ) := by exact_mod_cast hg.1
      have h2b : (2 : ℚ) ≤ (b : ℚ) := by exact_mod_cast hg.2.2.1
      have hup_a : (a : ℚ) + 2 ≤ (W : ℚ) := by
        exact_mod_cast Nat.succ_le_of_lt hg.2.1
      have hup_b : (b : ℚ) + 2 ≤ (H : ℚ) := by
        exact_mod_cast Nat.succ_le_of_lt hg.2.2.2
      refine ⟨by simp only []; linarith, by simp only []; linarith,
              by simp only []; linarith, by simp only []; linarith⟩
    · rw [if_neg hg]
      exact ⟨Nat.cast_nonneg _, haQ, Nat.cast_nonneg _, hbQ⟩

/-- Witness for C9 at the concrete 5×5 heatmap `hmWit`. -/
theorem C9_witness :
    (0 ≤ (gmp_pred hmWit 5 5 0 0).1 ∧ (gmp_pred hmWit 5 5 0 0).1 ≤ (5 : ℚ) - 1 ∧
     0 ≤ (gmp_pred hmWit 5 5 0 0).2 ∧ (gmp_pred hmWit 5 5 0 0).2 ≤ (5 : ℚ) - 1) ∧
    (0 ≤ (gfp_coords hmWit 5 5 0 0).1 ∧ (gfp_coords hmWit 5 5 0 0).1 ≤ (5 : ℚ) - 1 ∧
     0 ≤ (gfp_coords hmWit 5 5 0 0).2 ∧ (gfp_coords hmWit 5 5 0 0).2 ≤ (5 : ℚ) - 1) :=
  C9_coords_in_bounds hmWit 5 5 0 0 (by norm_num) (by norm_num)

/-! ### Claim C1: which peaks the refinement applies to -/

/-- C1 counterexample: on the 3×3 heatmap `hmC1` the peak is
`(px, py) = (1, 1)`, strictly inside the border by one pixel
(`1 ≤ px ≤ width - 2`, `1 ≤ py ≤ height - 2`, with
`width = height = 3`), and the x finite difference
`hm[py][px+1] - hm[py][px-1]` is positive, so the claim predicts the
refined coordinate `x = 1 + 0.25`; but the code's guard
`1 < px < width - 1` is false at `px = 1` and `get_final_preds` leaves
the peak at its integer location `(1, 1)`. -/
theorem C1_counterexample :
    gmp_pred hmC1 3 3 0 0 = ((1 : ℚ), (1 : ℚ)) ∧
    (1 ≤ 1 ∧ (1 : Nat) ≤ 3 - 2) ∧
    0 < hmC1 0 0 1 2 - hmC1 0 0 1 0 ∧
    gfp_coords hmC1 3 3 0 0 = ((1 : ℚ), (1 : ℚ)) ∧
    (gfp_coords hmC1 3 3 0 0).1 ≠ 1 + 1/4 := by
  norm_num [gfp_coords, refineStep, gmp_pred, gmp_predN, gmp_maxval, gmp_idx,
    amaxLe, argmaxLe, flatSlice, hmC1, qsign, Int.toNat, Prod.ext_iff]

/-- C1 (amended): the sub-pixel refinement in `get_final_preds` is
applied to an integer peak `(px, py)` iff `2 ≤ px`, `px ≤ width - 2`,
`2 ≤ py` and `py ≤ height - 2` (the code's guard is the *strict*
`1 < px < width - 1`, `1 < py < height - 1`); consequently it can only
activate when height and width are at least 4, and every peak at
distance ≤ 1 from the border — in particular every peak of a heatmap
with height ≤ 3 or width ≤ 3 — is left at its integer location. -/
theorem C1_refinement_guard (hm : Arr4) (H W n j : Nat) :
    ((2 ≤ (gmp_predN hm H W n j).1 ∧ (gmp_predN hm H W n j).1 + 2 ≤ W ∧
      2 ≤ (gmp_predN hm H W n j).2 ∧ (gmp_predN hm H W n j).2 + 2 ≤ H) →
      gfp_coords hm H W n j =
        (((gmp_predN hm H W n j).1 : ℚ) +
           qsign (hm n j (gmp_predN hm H W n j).2 ((gmp_predN hm H W n j).1 + 1) -
                  hm n j (gmp_predN hm H W n j).2 ((gmp_predN hm H W n j).1 - 1)) * (1/4),
         ((gmp_predN hm H W n j).2 : ℚ) +
           qsign (hm n j ((gmp_predN hm H W n j).2 + 1) (gmp_predN hm H W n j).1 -
                  hm n j ((gmp_predN hm H W n j).2 - 1) (gmp_predN hm H W n j).1) * (1/4))) ∧
    (¬(2 ≤ (gmp_predN hm H W n j).1 ∧ (gmp_predN hm H W n j).1 + 2 ≤ W ∧
       2 ≤ (gmp_predN hm H W n j).2 ∧ (gmp_predN hm H W n j).2 + 2 ≤ H) →
      gfp_coords hm H W n j = gmp_pred hm H W n j) ∧
    ((W ≤ 3 ∨ H ≤ 3) → gfp_coords hm H W n j = gmp_pred hm H W n j) := by
  have hstep := refineStep_natCast hm H W n j
    (gmp_predN hm H W n j).1 (gmp_predN hm H W n j).2
  have hgfp : gfp_coords hm H W n j =
      refineStep hm H W n j
        (((gmp_predN hm H W n j).1 : ℚ), ((gmp_predN hm H W n j).2 : ℚ)) := by
    rw [gfp_coords, gmp_pred_eq_cast]
  refine ⟨?_, ?_, ?_⟩
  · intro hguard
    rw [hgfp, hstep, if_pos (by omega)]
  · intro hguard
    rw [hgfp, hstep, if_neg (by omega), gmp_pred_eq_cast]
  · intro hsmall
    rw [hgfp, hstep, if_neg (by omega), gmp_pred_eq_cast]

set_option maxRecDepth 4000 in
/-- Witness for C1 (amended) at the concrete 5×5 heatmap `hmWit`, whose
peak `(2, 2)` satisfies the code's refinement guard. -/
theorem C1_witness :
    gfp_coords hmWit 5 5 0 0 =
      (((gmp_predN hmWit 5 5 0 0).1 : ℚ) +
         qsign (hmWit 0 0 (gmp_predN hmWit 5 5 0 0).2 ((gmp_predN hmWit 5 5 0 0).1 + 1) -
                hmWit 0 0 (gmp_predN hmWit 5 5 0 0).2 ((gmp_predN hmWit 5 5 0 0).1 - 1)) * (1/4),
       ((gmp_predN hmWit 5 5 0 0).2 : ℚ) +
         qsign (hmWit 0 0 ((gmp_predN hmWit 5 5 0 0).2 + 1) (gmp_predN hmWit 5 5 0 0).1 -
                hmWit 0 0 ((gmp_predN hmWit 5 5 0 0).2 - 1) (gmp_predN hmWit 5 5 0 0).1) * (1/4)) :=
  (C1_refinement_guard hmWit 5 5 0 0).1 (by decide)

/-! ### Claim C4: the refinement moves by exactly a quarter pixel -/

theorem qsign_of_pos {v : ℚ} (h : 0 < v) : qsign v = 1 := by
  unfold qsign
  rw [if_pos h]

theorem qsign_of_neg {v : ℚ} (h : v < 0) : qsign v = -1 := by
  unfold qsign
  rw [if_neg (by linarith), if_pos h]

theorem qsign_of_zero {v : ℚ} (h : v = 0) : qsign v = 0 := by
  unfold qsign
  rw [if_neg (by simp [h]), if_neg (by simp [h])]

/-- C4: whenever the refinement is applied to the integer peak `(a, b)`
(the code's guard holds), each coordinate axis changes by exactly
`sign(finite difference) * 0.25`: `+0.25` toward the strictly larger
neighbor, `-0.25` toward the other side, and `0` when the finite
difference vanishes. -/
theorem C4_quarter_offset (hm : Arr4) (H W n j a b : Nat)
    (hab : gmp_predN hm H W n j = (a, b))
    (hg : 2 ≤ a ∧ a + 2 ≤ W ∧ 2 ≤ b ∧ b + 2 ≤ H) :
    gfp_coords hm H W n j =
      ((a : ℚ) + qsign (hm n j b (a + 1) - hm n j b (a - 1)) * (1/4),
       (b : ℚ) + qsign (hm n j (b + 1) a - hm n j (b - 1) a) * (1/4)) ∧
    (hm n j b (a - 1) < hm n j b (a + 1) →
      (gfp_coords hm H W n j).1 = (a : ℚ) + 1/4) ∧
    (hm n j b (a + 1) < hm n j b (a - 1) →
      (gfp_coords hm H W n j).1 = (a : ℚ) - 1/4) ∧
    (hm n j b (a + 1) = hm n j b (a - 1) →
      (gfp_coords hm H W n j).1 = (a : ℚ)) ∧
    (hm n j (b - 1) a < hm n j (b + 1) a →
      (gfp_coords hm H W n j).2 = (b : ℚ) + 1/4) ∧
    (hm n j (b + 1) a < hm n j (b - 1) a →
      (gfp_coords hm H W n j).2 = (b : ℚ) - 1/4) ∧
    (hm n j (b + 1) a = hm n j (b - 1) a →
      (gfp_coords hm H W n j).2 = (b : ℚ)) := by
  have hmain : gfp_coords hm H W n j =
      ((a : ℚ) + qsign (hm n j b (a + 1) - hm n j b (a - 1)) * (1/4),
       (b : ℚ) + qsign (hm n j (b + 1) a - hm n j (b - 1) a) * (1/4)) := by
    have hgfp : gfp_coords hm H W n j =
        refineStep hm H W n j ((a : ℚ), (b : ℚ)) := by
      rw [gfp_coords, gmp_pred_eq_cast, hab]
    rw [hgfp, refineStep_natCast, if_pos (by omega)]
  refine ⟨hmain, ?_, ?_, ?_, ?_, ?_, ?_⟩
  · intro h
    rw [hmain, qsign_of_pos (by linarith : 0 < hm n j b (a + 1) - hm n j b (a - 1))]
    norm_num
  · intro h
    rw [hmain, qsign_of_neg (by linarith : hm n j b (a + 1) - hm n j b (a - 1) < 0)]
    norm_num
    ring
  · intro h
    rw [hmain, qsign_of_zero (by linarith : hm n j b (a + 1) - hm n j b (a - 1) = 0)]
    norm_num
  · intro h
    rw [hmain, qsign_of_pos (by linarith : 0 < hm n j (b + 1) a - hm n j (b - 1) a)]
    norm_num
  · intro h
    rw [hmain, qsign_of_neg (by linarith : hm n j (b + 1) a - hm n j (b - 1) a < 0)]
    norm_num
    ring
  · intro h
    rw [hmain, qsign_of_zero (by linarith : hm n j (b + 1) a - hm n j (b - 1) a = 0)]
    norm_num

set_option maxRecDepth 4000 in
/-- Witness for C4 at the concrete 5×5 heatmap `hmWit` with peak
`(2, 2)`: its right x-neighbor is strictly larger than the left one, so
the x coordinate moves by `+0.25`. -/
theorem C4_witness :
    (gfp_coords hmWit 5 5 0 0).1 = ((2 : Nat) : ℚ) + 1/4 :=
  (C4_quarter_offset hmWit 5 5 0 0 2 2 (by decide) (by decide)).2.1 (by decide)

/-! ### Claim C5: decoding a unit impulse -/

/-- The flattened slice of a unit impulse at `(x0, y0)` is the unit
impulse at flat index `y0 * W + x0`. -/
theorem flat_impulse (y0 x0 W n j : Nat) (hx : x0 < W) (i : Nat) :
    flatSlice (impulseHm y0 x0) W n j i = if i = y0 * W + x0 then 1 else 0 := by
  unfold flatSlice impulseHm
  by_cases h : i = y0 * W + x0
  · subst h
    rw [if_pos rfl, if_pos ?_]
    constructor
    · rw [Nat.mul_comm, Nat.mul_add_div (by omega), Nat.div_eq_of_lt hx]
      omega
    · rw [Nat.mul_comm, Nat.mul_add_mod, Nat.mod_eq_of_lt hx]

  · rw [if_neg h, if_neg ?_]
    rintro ⟨hdiv, hmod⟩
    apply h
    have hdm := Nat.div_add_mod i W
    rw [hdiv, hmod] at hdm
    rw [Nat.mul_comm y0 W]
    omega

/-- Peak extraction on a unit impulse at interior pixel `(x0, y0)`:
the flat argmax is `y0 * W + x0`, the maximum is 1, and the integer
coordinate is `(x0, y0)`. -/
theorem gmp_impulse (H W x0 y0 n j : Nat) (hx : x0 < W) (hy : y0 < H) :
    gmp_idx (impulseHm y0 x0) H W n j = y0 * W + x0 ∧
    gmp_maxval (impulseHm y0 x0) H W n j = 1 ∧
    gmp_predN (impulseHm y0 x0) H W n j = (x0, y0) := by
  have hW : 0 < W := by omega
  have hi0 : y0 * W + x0 < H * W := by
    have h1 : y0 * W + x0 < (y0 + 1) * W := by
      rw [Nat.succ_mul]
      omega
    have h2 : (y0 + 1) * W ≤ H * W := Nat.mul_le_mul_right W (by omega)
    omega
  have hidx : gmp_idx (impulseHm y0 x0) H W n j = y0 * W + x0 := by
    unfold gmp_idx
    apply argmaxLe_impulse
    · rw [flat_impulse y0 x0 W n j hx, if_pos rfl]
    · intro i hi
      rw [flat_impulse y0 x0 W n j hx, if_neg hi]
    · omega
  have hmax : gmp_maxval (impulseHm y0 x0) H W n j = 1 := by
    unfold gmp_maxval
    rw [amaxLe_eq]
    rw [show argmaxLe (flatSlice (impulseHm y0 x0) W n j) (H * W - 1) =
          gmp_idx (impulseHm y0 x0) H W n j from rfl, hidx]
    rw [flat_impulse y0 x0 W n j hx, if_pos rfl]
  refine ⟨hidx, hmax, ?_⟩
  unfold gmp_predN
  rw [if_pos (by rw [hmax]; norm_num), hidx]
  rw [Nat.mul_comm, Nat.mul_add_mod, Nat.mod_eq_of_lt hx,
    Nat.mul_add_div (by omega), Nat.div_eq_of_lt hx, Nat.add_zero]

/-- C5: for a heatmap that is a single unit impulse at an interior
pixel `(x0, y0)` (strictly inside by one pixel on each side), the
pre-transform coordinate decoded by `get_final_preds` equals `(x0, y0)`
to within `±0.25` on each axis, and the confidence is 1. -/
theorem C5_unit_impulse (H W x0 y0 n j : Nat)
    (hx1 : 1 ≤ x0) (hx2 : x0 + 2 ≤ W) (hy1 : 1 ≤ y0) (hy2 : y0 + 2 ≤ H) :
    |(gfp_coords (impulseHm y0 x0) H W n j).1 - (x0 : ℚ)| ≤ 1/4 ∧
    |(gfp_coords (impulseHm y0 x0) H W n j).2 - (y0 : ℚ)| ≤ 1/4 ∧
    gmp_maxval (impulseHm y0 x0) H W n j = 1 := by
  obtain ⟨hidx, hmax, hpredN⟩ :=
    gmp_impulse H W x0 y0 n j (by omega) (by omega)
  have hcoords : gfp_coords (impulseHm y0 x0) H W n j = ((x0 : ℚ), (y0 : ℚ)) := by
    have hgfp : gfp_coords (impulseHm y0 x0) H W n j =
        refineStep (impulseHm y0 x0) H W n j ((x0 : ℚ), (y0 : ℚ)) := by
      rw [gfp_coords, gmp_pred_eq_cast, hpredN]
    rw [hgfp, refineStep_natCast]
    by_cases hguard : 1 < x0 ∧ x0 + 1 < W ∧ 1 < y0 ∧ y0 + 1 < H
    · rw [if_pos hguard]
      have e1 : impulseHm y0 x0 n j y0 (x0 + 1) = 0 := by
        unfold impulseHm
        rw [if_neg (by omega)]
      have e2 : impulseHm y0 x0 n j y0 (x0 - 1) = 0 := by
        unfold impulseHm
        rw [if_neg (by omega)]
      have e3 : impulseHm y0 x0 n j (y0 + 1) x0 = 0 := by
        unfold impulseHm
        rw [if_neg (by omega)]
      have e4 : impulseHm y0 x0 n j (y0 - 1) x0 = 0 := by
        unfold impulseHm
        rw [if_neg (by omega)]
      rw [e1, e2, e3, e4, qsign_of_zero (by ring)]
      norm_num
    · rw [if_neg hguard]
  rw [hcoords]
  norm_num
  exact hmax

/-- Witness for C5: a unit impulse at `(1, 1)` in a 3×3 heatmap. -/
theorem C5_witness :
    |(gfp_coords (impulseHm 1 1) 3 3 0 0).1 - ((1 : Nat) : ℚ)| ≤ 1/4 ∧
    |(gfp_coords (impulseHm 1 1) 3 3 0 0).2 - ((1 : Nat) : ℚ)| ≤ 1/4 ∧
    gmp_maxval (impulseHm 1 1) 3 3 0 0 = 1 :=
  C5_unit_impulse 3 3 1 1 0 0 (by decide) (by decide) (by decide) (by decide)

/-! ### Claims C6 and C10: `flip_back` and the flip-test combination -/

theorem flipBackBase_cons (a : Arr4) (p : Nat × Nat) (ps : List (Nat × Nat))
    (W : Nat) :
    flipBackBase a (p :: ps) W = flipBackBase (swapCh W a p.1 p.2) ps W := rfl

theorem swapCh_other (W : Nat) (a : Arr4) (p q n ch y x : Nat)
    (h1 : ch ≠ p) (h2 : ch ≠ q) :
    swapCh W a p q n ch y x = a n ch y x := by
  unfold swapCh
  by_cases hx : x < W
  · rw [if_pos hx, if_neg h1, if_neg h2]
  · rw [if_neg hx]

/-- Channels not mentioned by any pair are untouched by the swaps. -/
theorem flipBackBase_other (W : Nat) (pairs : List (Nat × Nat)) (a : Arr4)
    (n ch y x : Nat) (hch : ∀ p ∈ pairs, p.1 ≠ ch ∧ p.2 ≠ ch) :
    flipBackBase a pairs W n ch y x = a n ch y x := by
  induction pairs generalizing a with
  | nil => rfl
  | cons p ps ih =>
    rw [flipBackBase_cons]
    rw [ih (swapCh W a p.1 p.2) fun q hq => hch q (List.mem_cons_of_mem p hq)]
    exact swapCh_other W a p.1 p.2 n ch y x
      (Ne.symm (hch p (List.mem_cons_self p ps)).1)
      (Ne.symm (hch p (List.mem_cons_self p ps)).2)

/-- Each pair of channels ends up swapped after all the in-place
swaps, provided the pairs are disjoint. -/
theorem flipBackBase_pair (W : Nat) (pairs : List (Nat × Nat)) (a : Arr4)
    (hd : pairsDisjoint pairs) (P Q : Nat) (hmem : (P, Q) ∈ pairs)
    (n y x : Nat) (hx : x < W) :
    flipBackBase a pairs W n P y x = a n Q y x ∧
    flipBackBase a pairs W n Q y x = a n P y x := by
  induction pairs generalizing a with
  | nil => cases hmem
  | cons p ps ih =>
    obtain ⟨hND, hPW⟩ := hd
    rw [List.pairwise_cons] at hPW
    rcases List.mem_cons.mp hmem with heq | hmem'
    · subst heq
      rw [flipBackBase_cons]
      have hP : ∀ q ∈ ps, q.1 ≠ P ∧ q.2 ≠ P := fun q hq =>
        ⟨Ne.symm (hPW.1 q hq).1, Ne.symm (hPW.1 q hq).2.1⟩
      have hQ : ∀ q ∈ ps, q.1 ≠ Q ∧ q.2 ≠ Q := fun q hq =>
        ⟨Ne.symm (hPW.1 q hq).2.2.1, Ne.symm (hPW.1 q hq).2.2.2⟩
      rw [flipBackBase_other W ps _ n P y x hP,
        flipBackBase_other W ps _ n Q y x hQ]
      have hPQ : P ≠ Q := hND (P, Q) (List.mem_cons_self _ _)
      constructor
      · unfold swapCh
        rw [if_pos hx, if_pos rfl]
      · unfold swapCh
        rw [if_pos hx, if_neg (Ne.symm hPQ), if_pos rfl]
    · have hd' : pairsDisjoint ps :=
        ⟨fun q hq => hND q (List.mem_cons_of_mem p hq), hPW.2⟩
      have hih := ih (swapCh W a p.1 p.2) hd' hmem'
      have hp1P : p.1 ≠ P := (hPW.1 (P, Q) hmem').1
      have hp2P : p.2 ≠ P := (hPW.1 (P, Q) hmem').2.2.1
      have hp1Q : p.1 ≠ Q := (hPW.1 (P, Q) hmem').2.1
      have hp2Q : p.2 ≠ Q := (hPW.1 (P, Q) hmem').2.2.2
      rw [flipBackBase_cons]
      rw [hih.1, hih.2]
      constructor
      · exact swapCh_other W a p.1 p.2 n Q y x (Ne.symm hp1Q) (Ne.symm hp2Q)
      · exact swapCh_other W a p.1 p.2 n P y x (Ne.symm hp1P) (Ne.symm hp2P)

/-- C6: with pairwise-disjoint flip pairs, `flip_back` reverses the
width axis and exchanges each pair's joint channels
(`output[n, a, y, x] = input[n, b, y, W-1-x]` and symmetrically), leaves
unpaired channels at `input[n, j, y, W-1-x]`; and the `_forward`
flip-test combination averages the straight heatmap and the
flip-corrected one with equal weight `0.5`, where with `shift_heatmap`
enabled every column `x ≥ 1` of the corrected map is replaced by its
column `x - 1` (and column 0 is kept). -/
theorem C6_flip_back_forward (a : Arr4) (pairs : List (Nat × Nat)) (W : Nat)
    (hd : pairsDisjoint pairs) :
    (∀ P Q n y x, (P, Q) ∈ pairs → x < W →
      flip_back a pairs W n P y x = a n Q y (W - 1 - x) ∧
      flip_back a pairs W n Q y x = a n P y (W - 1 - x)) ∧
    (∀ ch n y x, (∀ p ∈ pairs, p.1 ≠ ch ∧ p.2 ≠ ch) → x < W →
      flip_back a pairs W n ch y x = a n ch y (W - 1 - x)) ∧
    (∀ h n j y x, forwardHeatmap h a pairs W false n j y x =
      (h n j y x + flip_back a pairs W n j y x) * (1/2)) ∧
    (∀ h n j y x, 1 ≤ x → forwardHeatmap h a pairs W true n j y x =
      (h n j y x + flip_back a pairs W n j y (x - 1)) * (1/2)) ∧
    (∀ h n j y, forwardHeatmap h a pairs W true n j y 0 =
      (h n j y 0 + flip_back a pairs W n j y 0) * (1/2)) := by
  refine ⟨?_, ?_, ?_, ?_, ?_⟩
  · intro P Q n y x hmem hx
    have hx' : W - 1 - x < W := by omega
    exact flipBackBase_pair W pairs a hd P Q hmem n y (W - 1 - x) hx'
  · intro ch n y x hch hx
    exact flipBackBase_other W pairs a n ch y (W - 1 - x) hch
  · intro h n j y x
    rfl
  · intro h n j y x hx1
    simp [forwardHeatmap, shiftHeatmap, hx1]
  · intro h n j y
    simp [forwardHeatmap, shiftHeatmap]

/-- Witness for C6 on the concrete 1×2×1×2 array `hmC10` with the
single flip pair `(0, 1)`. -/
theorem C6_witness :
    flip_back hmC10 [(0, 1)] 2 0 0 0 0 = hmC10 0 1 0 1 ∧
    flip_back hmC10 [(0, 1)] 2 0 1 0 0 = hmC10 0 0 0 1 :=
  (C6_flip_back_forward hmC10 [(0, 1)] 2 (by decide)).1 0 1 0 0 0
    (by decide) (by decide)

/-- C10: `flip_back` mutates its argument in place: the array it
returns is the reversed view over the caller's (now mutated) backing
array, whose paired channels have been exchanged by the swaps written
through the view; on the concrete array `hmC10` the backing array
after the call differs from its original contents. -/
theorem C10_inplace_mutation (a : Arr4) (pairs : List (Nat × Nat)) (W : Nat)
    (hd : pairsDisjoint pairs) :
    (∀ n j y x, flip_back a pairs W n j y x =
      flipBackBase a pairs W n j y (W - 1 - x)) ∧
    (∀ P Q n y x, (P, Q) ∈ pairs → x < W →
      flipBackBase a pairs W n P y x = a n Q y x ∧
      flipBackBase a pairs W n Q y x = a n P y x) ∧
    flipBackBase hmC10 [(0, 1)] 2 0 0 0 0 ≠ hmC10 0 0 0 0 := by
  refine ⟨fun n j y x => rfl, ?_, ?_⟩
  · intro P Q n y x hmem hx
    exact flipBackBase_pair W pairs a hd P Q hmem n y x hx
  · norm_num [flipBackBase, swapCh, hmC10]

/-- Witness for C10: after `flip_back` on `hmC10` with pair `(0, 1)`,
channel 0 of the backing array holds channel 1's original contents. -/
theorem C10_witness :
    flipBackBase hmC10 [(0, 1)] 2 0 0 0 0 = hmC10 0 1 0 0 ∧
    flipBackBase hmC10 [(0, 1)] 2 0 1 0 0 = hmC10 0 0 0 0 :=
  (C10_inplace_mutation hmC10 [(0, 1)] 2 (by decide)).2.1 0 1 0 0 0
    (by decide) (by decide)

/-! ### Claim C7: the structure of `__call__`'s output -/

/-- C7 counterexample: for a batch of size 2, `__call__` does not
return two per-image results: `outputs = [[concat, mean]]` is a list
with a single element holding the whole-batch arrays. -/
theorem C7_counterexample :
    (postprocess_call zeroHm 2 1 1 1 (fun _ => (0, 0)) (fun _ => (0, 0))).length
      = 1 ∧
    (postprocess_call zeroHm 2 1 1 1 (fun _ => (0, 0)) (fun _ => (0, 0))).length
      ≠ 2 := by
  constructor
  · rfl
  · intro h
    simp [postprocess_call] at h

/-- C7 (amended): for a batch of size `B`, `__call__` returns a
*singleton* list whose one element packs the whole batch: a
`(B, num_joints, 3)` array whose row `n`, entry `j` is
`(x, y, confidence)` for image `n` — the transformed refined coordinate
and the maximum heatmap score — together with a length-`B` list whose
entry `n` is image `n`'s mean confidence over its joints. -/
theorem C7_call_structure (hm : Arr4) (B J H W : Nat)
    (center scale : Nat → ℚ × ℚ) (n jj : Nat) (hn : n < B) (hj : jj < J) :
    (postprocess_call hm B J H W center scale).length = 1 ∧
    ∀ out ∈ postprocess_call hm B J H W center scale,
      out.1.length = B ∧ out.2.length = B ∧
      out.1[n]? =
        some ((List.range J).map fun j => kpt_row hm H W center scale n j) ∧
      ((List.range J).map fun j => kpt_row hm H W center scale n j)[jj]? =
        some (kpt_row hm H W center scale n jj) ∧
      kpt_row hm H W center scale n jj =
        ((transform_preds (gfp_coords hm H W n jj) (center n) (scale n) W H).1,
         (transform_preds (gfp_coords hm H W n jj) (center n) (scale n) W H).2,
         gmp_maxval hm H W n jj) ∧
      out.2[n]? = some (meanScore hm H W J n) ∧
      meanScore hm H W J n =
        (((List.range J).map fun j => gmp_maxval hm H W n j).sum) / J := by
  constructor
  · rfl
  · intro out hout
    rw [postprocess_call, List.mem_singleton] at hout
    subst hout
    refine ⟨by simp, by simp, ?_, ?_, rfl, ?_, rfl⟩
    · rw [List.getElem?_map, List.getElem?_range hn]
      rfl
    · rw [List.getElem?_map, List.getElem?_range hj]
      rfl
    · rw [List.getElem?_map, List.getElem?_range hn]
      rfl

/-- Witness for C7 (amended) at a concrete batch of size 1. -/
theorem C7_witness :
    (postprocess_call zeroHm 1 1 1 1 (fun _ => (0, 0)) (fun _ => (0, 0))).length
      = 1 :=
  (C7_call_structure zeroHm 1 1 1 1 (fun _ => (0, 0)) (fun _ => (0, 0)) 0 0
    (by decide) (by decide)).1

/-! ### Claim C8: the dimension assertion of `get_max_preds` -/

/-- C8 counterexample: the 4-dimensional, zero-height array of shape
`(1, 1, 0, 5)` passes the `ndim == 4` assertion but does *not* return
normally: `np.argmax` over the empty flattened axis raises a
`ValueError`. -/
theorem C8_counterexample :
    ([1, 1, 0, 5] : List Nat).length = 4 ∧
    get_max_preds ⟨[1, 1, 0, 5], []⟩ = Except.error PyError.valueError ∧
    get_max_preds ⟨[1, 1, 0, 5], []⟩ ≠ Except.error PyError.assertionError ∧
    (get_max_preds ⟨[1, 1, 0, 5], []⟩).isOk = false := by
  refine ⟨rfl, rfl, ?_, rfl⟩
  intro h
  rw [show get_max_preds ⟨[1, 1, 0, 5], []⟩ = Except.error PyError.valueError
    from rfl] at h
  simp at h

/-- C8 (amended): `get_max_preds` raises its `AssertionError` iff the
input is not 4-dimensional; a 4-dimensional input with all dimensions
positive (hence a nonempty array) returns normally.  (A 4-dimensional
input with an empty axis does not assert, but raises a `ValueError`
from `reshape`/`argmax` instead of returning.) -/
theorem C8_assert_iff (a : NDArray) :
    (get_max_preds a = Except.error PyError.assertionError ↔
      a.shape.length ≠ 4) ∧
    (∀ B J H W, a.shape = [B, J, H, W] →
      0 < B → 0 < J → 0 < H → 0 < W →
      (get_max_preds a).isOk = true) := by
  obtain ⟨s, d⟩ := a
  rcases s with _ | ⟨B, _ | ⟨J, _ | ⟨H, _ | ⟨W, _ | ⟨e, rest⟩⟩⟩⟩⟩
  · exact ⟨by simp [get_max_preds], by intro B J H W h; simp at h⟩
  · exact ⟨by simp [get_max_preds], by intro B' J' H' W' h; simp at h⟩
  · exact ⟨by simp [get_max_preds], by intro B' J' H' W' h; simp at h⟩
  · exact ⟨by simp [get_max_preds], by intro B' J' H' W' h; simp at h⟩
  · constructor
    · simp only [get_max_preds]
      split_ifs <;> simp
    · intro B' J' H' W' h hB hJ hH hW
      simp only [List.cons.injEq, and_true] at h
      obtain ⟨hBe, hJe, hHe, hWe⟩ := h
      subst hBe; subst hJe; subst hHe; subst hWe
      simp only [get_max_preds]
      rw [if_neg (Nat.mul_pos hB hJ).ne', if_neg (Nat.mul_pos hH hW).ne']
      rfl
  · exact ⟨by simp [get_max_preds], by intro B' J' H' W' h; simp at h⟩

/-- Witness for C8 (amended): a nonempty 1×1×1×1 array returns
normally. -/
theorem C8_witness :
    (get_max_preds ⟨[1, 1, 1, 1], [5]⟩).isOk = true :=
  (C8_assert_iff ⟨[1, 1, 1, 1], [5]⟩).2 1 1 1 1 rfl (by decide) (by decide)
    (by decide) (by decide)

end KeypointHRNet
